import Mathlib

/-!
Shallow embedding of the three-body orbit baking pipeline (src/main.rs).

The Rust source works over `f64` and `glam::DVec2`.  We model `f64` as `ℚ`
(exact arithmetic; the claims under verification are structural and algebraic,
not about floating-point rounding) and abstract the transcendental operations
(`sqrt`, `atan2`, `cos`, `sin`, and the constant `TAU`) as an explicit record
of functions threaded through the definitions, exactly where the source calls
them.  Rust panics (`assert!`, out-of-bounds indexing) are modelled by
`Option`: `none` is a panic.
-/

set_option autoImplicit false

/-- The transcendental primitives used by the source, abstracted:
`f64::sqrt`, `f64::atan2`, `f64::cos`/`f64::sin` (via `DVec2::from_angle`)
and the constant `std::f64::consts::TAU`. -/
structure RealOps where
  sqrt : ℚ → ℚ
  atan2 : ℚ → ℚ → ℚ
  cos : ℚ → ℚ
  sin : ℚ → ℚ
  tau : ℚ

/-- A concrete `RealOps` used to instantiate theorems at computable inputs.
(`sqrt` agrees with the real square root on `0` and `1`, which is all the
concrete instantiations evaluate it at.) -/
def testOps : RealOps where
  sqrt := fun x => x
  atan2 := fun _ _ => 0
  cos := fun _ => 1
  sin := fun _ => 0
  tau := 0

/-- 2D vector of doubles (`glam::DVec2`). -/
structure Vec2 where
  x : ℚ
  y : ℚ
deriving DecidableEq

@[ext] theorem Vec2.ext {u v : Vec2} (hx : u.x = v.x) (hy : u.y = v.y) : u = v := by
  cases u; cases v; simp_all

instance : Add Vec2 := ⟨fun u v => ⟨u.x + v.x, u.y + v.y⟩⟩

instance : Sub Vec2 := ⟨fun u v => ⟨u.x - v.x, u.y - v.y⟩⟩

instance : Neg Vec2 := ⟨fun v => ⟨-v.x, -v.y⟩⟩

/-- Scalar-on-the-left multiplication (`s * v` on `DVec2`). -/
def Vec2.smul (s : ℚ) (v : Vec2) : Vec2 := ⟨s * v.x, s * v.y⟩

/-- Vector-times-scalar multiplication (`v * s` on `DVec2`). -/
def Vec2.vmul (v : Vec2) (s : ℚ) : Vec2 := ⟨v.x * s, v.y * s⟩

/-- `DVec2::length_squared`. -/
def Vec2.lengthSq (v : Vec2) : ℚ := v.x * v.x + v.y * v.y

/-- `DVec2::normalize`: the vector divided by its length (`sqrt` abstract). -/
def Vec2.normalize (ops : RealOps) (v : Vec2) : Vec2 :=
  let len := ops.sqrt v.lengthSq
  ⟨v.x / len, v.y / len⟩

/-- `DVec2::distance_squared`. -/
def Vec2.dist2 (u v : Vec2) : ℚ := (u - v).lengthSq

/-- `DVec2::lerp(self, rhs, s) = self + (rhs - self) * s`. -/
def Vec2.lerp (a b : Vec2) (s : ℚ) : Vec2 := a + (b - a).vmul s

/-- `DVec2::from_angle`: unit vector `(cos a, sin a)`. -/
def Vec2.from_angle (ops : RealOps) (a : ℚ) : Vec2 := ⟨ops.cos a, ops.sin a⟩

/-- Sum of a list of vectors (`impl Sum for DVec2`; iterator `sum` folds
from zero on the left). -/
def vecSum (l : List Vec2) : Vec2 := l.foldl (· + ·) ⟨0, 0⟩

@[simp] theorem Vec2.add_x (u v : Vec2) : (u + v).x = u.x + v.x := rfl

@[simp] theorem Vec2.add_y (u v : Vec2) : (u + v).y = u.y + v.y := rfl

@[simp] theorem Vec2.sub_x (u v : Vec2) : (u - v).x = u.x - v.x := rfl

@[simp] theorem Vec2.sub_y (u v : Vec2) : (u - v).y = u.y - v.y := rfl

@[simp] theorem Vec2.add_def (a b c d : ℚ) :
    (⟨a, b⟩ + ⟨c, d⟩ : Vec2) = ⟨a + c, b + d⟩ := rfl

@[simp] theorem Vec2.sub_def (a b c d : ℚ) :
    (⟨a, b⟩ - ⟨c, d⟩ : Vec2) = ⟨a - c, b - d⟩ := rfl

@[simp] theorem Vec2.neg_def (a b : ℚ) : (-(⟨a, b⟩ : Vec2)) = ⟨-a, -b⟩ := rfl

@[simp] theorem Vec2.smul_def (s : ℚ) (a b : ℚ) :
    Vec2.smul s ⟨a, b⟩ = ⟨s * a, s * b⟩ := rfl

@[simp] theorem Vec2.vmul_def (s : ℚ) (a b : ℚ) :
    Vec2.vmul ⟨a, b⟩ s = ⟨a * s, b * s⟩ := rfl

/-- A simulated body (`struct Body`; the render-only `color` field carries no
dynamics and is omitted). -/
structure Body where
  mass : ℚ
  position : Vec2
  velocity : Vec2
deriving DecidableEq

/-- `struct SimulationConfig`. -/
structure SimulationConfig where
  frames : Nat
  subframes : Nat

/-- `struct Orbit` (the `name` field is carried along unchanged). -/
structure Orbit where
  name : String
  initial_conds : List Body
  period : ℚ

/-- `struct OrbitConfig` (the `masses`/`positions`/`velocities` lists may
have mismatched lengths; `energy` is an opaque tag). -/
structure OrbitConfig where
  name : String
  period : ℚ
  energy : ℚ
  masses : List ℚ
  positions : List Vec2
  velocities : List Vec2

/-- `OrbitConfig::to_orbit`: zips the three per-body lists into bodies.
Rust's `zip` (like Lean's) truncates to the shortest list; there is no
validation.  The cycled color list is infinite and cannot shorten the zip,
so it is omitted along with the `color` field. -/
def OrbitConfig.to_orbit (cfg : OrbitConfig) : Orbit where
  name := cfg.name
  period := cfg.period
  initial_conds :=
    ((cfg.masses.zip cfg.positions).zip cfg.velocities).map fun mpv =>
      { mass := mpv.1.1, position := mpv.1.2, velocity := mpv.2 }

/-- One term of the Fourier description (`struct FrequencyComponent`). -/
structure FrequencyComponent where
  freq : ℚ
  amplitude : ℚ
  phase : ℚ
deriving DecidableEq

/-- `struct BakedBody`. -/
structure BakedBody where
  frequencies : List FrequencyComponent
deriving DecidableEq

/-- `BakedBody::optimize`: retain only the components whose amplitude
strictly exceeds the cutoff (`Vec::retain` keeps order, i.e. `filter`). -/
def BakedBody.optimize (body : BakedBody) (cutoff : ℚ) : BakedBody where
  frequencies := body.frequencies.filter fun freq => decide (cutoff < freq.amplitude)

/-- `fft_to_freq`: convert FFT bin `idx` of an `frame_num`-point transform
into a frequency component.  `half` is `usize` division. -/
def fft_to_freq (ops : RealOps) (idx : Nat) (re im : ℚ) (frame_num : Nat) :
    FrequencyComponent :=
  let half := frame_num / 2
  let freq : ℚ :=
    if idx = 0 then 0
    else if idx < half then -(idx : ℚ)
    else (frame_num : ℚ) - (idx : ℚ)
  { freq := freq
    amplitude := ops.sqrt (im * im + re * re) / (frame_num : ℚ)
    phase := ops.atan2 (-im) re }

/-- `FrequencyComponent::sample`: `DVec2::from_angle(-theta) * amplitude`
with `theta = TAU * at * freq + phase`. -/
def FrequencyComponent.sample (ops : RealOps) (c : FrequencyComponent) (at' : ℚ) : Vec2 :=
  let theta := ops.tau * at' * c.freq + c.phase
  (Vec2.from_angle ops (-theta)).vmul c.amplitude

/-- `inverse_analyze`: reconstruct `frames` positions from a body's
frequency set. -/
def inverse_analyze (ops : RealOps) (frames : Nat) (body : BakedBody) : List Vec2 :=
  (List.range frames).map fun (idx : Nat) =>
    vecSum (body.frequencies.map fun freq => freq.sample ops ((idx : ℚ) / (frames : ℚ)))

/-- Reconstruction as the spec's words state it: for each sample index `i`
in `[0, frames)`, with fractional period position `t = i / frames`, the sum
over all retained components of `amplitude * rotate(-(2pi*t*freq + phase))`,
a unit vector at that angle scaled (on the left) by the amplitude. -/
def reconstructSpec (ops : RealOps) (frames : Nat) (body : BakedBody) : List Vec2 :=
  (List.range frames).map fun (i : Nat) =>
    let t := (i : ℚ) / (frames : ℚ)
    vecSum (body.frequencies.map fun c =>
      Vec2.smul c.amplitude ⟨ops.cos (-(ops.tau * t * c.freq + c.phase)),
                             ops.sin (-(ops.tau * t * c.freq + c.phase))⟩)

/-- The pair indices `(body, other)` visited by the nested loops of
`apply_forces`: `body` in `0..len`, `other` in `body+1..len`, in order. -/
def pairList (n : Nat) : List (Nat × Nat) :=
  (List.range n).flatMap fun i => ((List.range n).drop (i + 1)).map fun j => (i, j)

/-- The body of the inner loop of `apply_forces` for one pair `(body, other)`:
read both bodies (`get_disjoint_mut`), compute the pairwise force
`mass_i * mass_j / |delta|^2` along the normalized separation, and apply
equal and opposite velocity increments `dt * force * delta`.  Positions and
masses are written back untouched. -/
def forcePair (ops : RealOps) (dt : ℚ) (bs : List Body) (ij : Nat × Nat) : List Body :=
  match bs[ij.1]?, bs[ij.2]? with
  | some body, some other =>
    let delta := body.position - other.position
    let mass := body.mass * other.mass
    let r2 := delta.lengthSq
    let force := mass / r2
    let deltaN := delta.normalize ops
    (bs.set ij.1 { body with velocity := body.velocity - Vec2.smul (dt * force) deltaN }).set
      ij.2 { other with velocity := other.velocity + Vec2.smul (dt * force) deltaN }
  | _, _ => bs

/-- `apply_forces`: run the pair loop over every ordered pair. -/
def apply_forces (ops : RealOps) (dt : ℚ) (bodies : List Body) : List Body :=
  (pairList bodies.length).foldl (forcePair ops dt) bodies

/-- `update`: `position += velocity * dt` for every body. -/
def update (dt : ℚ) (bodies : List Body) : List Body :=
  bodies.map fun body => { body with position := body.position + body.velocity.vmul dt }

/-- `step`: apply all pairwise forces, then update all positions. -/
def step (ops : RealOps) (dt : ℚ) (bodies : List Body) : List Body :=
  update dt (apply_forces ops dt bodies)

/-- The inner micro-step loop of `simulate`: 10000 integrator steps of
`timestep / 10000` per recorded sample. -/
def microLoop (ops : RealOps) (dt : ℚ) (bodies : List Body) : List Body :=
  (List.range 10000).foldl (fun bs _ => step ops dt bs) bodies

/-- The body of the outer recording loop of `simulate`: advance the bodies by
one full sample (10000 micro-steps) and append the resulting positions to the
history. -/
def simStep (ops : RealOps) (dt : ℚ) (st : List Body × List (List Vec2)) (_k : Nat) :
    List Body × List (List Vec2) :=
  let bodies := microLoop ops dt st.1
  (bodies, st.2 ++ [bodies.map Body.position])

/-- `simulate`: record the initial positions, then `frames * subframes`
samples, each after 10000 micro-steps of `timestep / 10000` where
`timestep = period / (frames * subframes)`.  (The start-end drift `eprintln`
is a diagnostic with no effect on the returned history.) -/
def simulate (ops : RealOps) (config : SimulationConfig) (orbit : Orbit) :
    List (List Vec2) :=
  let frame_num := config.frames * config.subframes
  let timestep := orbit.period / (frame_num : ℚ)
  let first := orbit.initial_conds.map Body.position
  ((List.range frame_num).foldl (simStep ops (timestep / 10000))
    (orbit.initial_conds, [first])).2

/-- `rms_error`: mean squared distance between two position sequences
(`zip` truncates to the shorter sequence; each term is divided by the
length of the left sequence). -/
def rms_error (lhs rhs : List Vec2) : ℚ :=
  ((lhs.zip rhs).map fun pr => pr.1.dist2 pr.2 / (lhs.length : ℚ)).sum

/-- One frame of `transpose`: push each of the frame's per-body entries onto
the corresponding accumulated row.  Rust's `zip` of `by_body.iter_mut()` with
`frame.iter()` stops at the shorter side: leftover rows stay untouched,
leftover frame entries are dropped. -/
def pushFrame {T O : Type} (map : T → O) : List (List O) → List T → List (List O)
  | acc, [] => acc
  | [], _ => []
  | col :: acc, t :: frame => (col ++ [map t]) :: pushFrame map acc frame

/-- `transpose`: frame-major to body-major.  The Rust function indexes
`positions[0]`, panicking (`none`) on an empty input; otherwise it folds
every frame into `positions[0].len()` initially-empty rows. -/
def transpose {T O : Type} (map : T → O) (positions : List (List T)) :
    Option (List (List O)) :=
  match positions with
  | [] => none
  | p0 :: _ => some (positions.foldl (pushFrame map) (List.replicate p0.length []))

/-- The per-frame blend of `simulate_closed`: one `lerp` per body, Rust `zip`
semantics (leftover forward entries kept, leftover backward entries dropped). -/
def lerpFrame (t : ℚ) : List Vec2 → List Vec2 → List Vec2
  | [], _ => []
  | fs, [] => fs
  | f :: fs, b :: bs => f.lerp b t :: lerpFrame t fs bs

/-- The frame-blending loop of `simulate_closed`: frame `idx` is blended with
weight `idx / n` where `n` is the forward trajectory's frame count; leftover
forward frames are kept unblended, leftover backward frames are dropped. -/
def blendFrom (n : Nat) : Nat → List (List Vec2) → List (List Vec2) → List (List Vec2)
  | _, [], _ => []
  | _, fs, [] => fs
  | idx, f :: fs, b :: bs =>
    lerpFrame ((idx : ℚ) / (n : ℚ)) f b :: blendFrom n (idx + 1) fs bs

/-- `simulate_closed`: simulate forwards and (with negated initial
velocities) backwards, reverse the backward run, drop the final sample of
each, check the per-body forward/backward RMS error is below `0.001`
(`assert!`, modelled as `none` on failure, as is the panicking `transpose`
of an empty trajectory), then blend the two trajectories frame by frame
with weight `idx / frame_num`. -/
def simulate_closed (ops : RealOps) (config : SimulationConfig) (orbit : Orbit) :
    Option (List (List Vec2)) :=
  let reversed : Orbit :=
    { orbit with
      initial_conds := orbit.initial_conds.map fun body =>
        { body with velocity := -body.velocity } }
  let forwards := (simulate ops config orbit).dropLast
  let backwards := ((simulate ops config reversed).reverse).dropLast
  match transpose (fun p => p) forwards, transpose (fun p => p) backwards with
  | some forwards_error, some backwards_error =>
    if (forwards_error.zip backwards_error).all
        (fun pr => decide (rms_error pr.1 pr.2 < 1 / 1000)) then
      some (blendFrom forwards.length 0 forwards backwards)
    else none
  | _, _ => none

/-- Total momentum of a body list: the sum of `mass * velocity`. -/
def totalMomentum (bodies : List Body) : Vec2 :=
  vecSum (bodies.map fun body => Vec2.smul body.mass body.velocity)

/-!
## Claim theorems
-/

/-- C1 (counterexample): the zero-frequency (DC) component is NOT retained by
`BakedBody::optimize` when its amplitude is at or below the cutoff: a body
whose only component is a DC term of amplitude `0` loses it entirely at
cutoff `0.001`. -/
theorem optimize_discards_dc_counterexample :
    ((⟨0, 0, 0⟩ : FrequencyComponent) ∈ ([⟨0, 0, 0⟩] : List FrequencyComponent)) ∧
    (BakedBody.optimize ⟨[⟨0, 0, 0⟩]⟩ (1 / 1000)).frequencies = [] := by
  refine ⟨by simp, ?_⟩
  simp [BakedBody.optimize]

/-- C1 (amended): `BakedBody::optimize` retains exactly the components whose
amplitude strictly exceeds the cutoff, in their original order; the DC
component gets no special treatment and is dropped whenever its amplitude is
at or below the cutoff. -/
theorem optimize_retains_iff_amplitude_gt_cutoff (body : BakedBody) (cutoff : ℚ) :
    List.Sublist (body.optimize cutoff).frequencies body.frequencies ∧
    ∀ f : FrequencyComponent,
      f ∈ (body.optimize cutoff).frequencies ↔
        f ∈ body.frequencies ∧ cutoff < f.amplitude := by
  refine ⟨List.filter_sublist _, fun f => ?_⟩
  simp [BakedBody.optimize, List.mem_filter]

/-- C1 (witness): a component of amplitude `1 > 0.001` is retained. -/
theorem optimize_retains_iff_amplitude_gt_cutoff_witness :
    (⟨1, 1, 0⟩ : FrequencyComponent) ∈
      (BakedBody.optimize ⟨[⟨1, 1, 0⟩]⟩ (1 / 1000)).frequencies :=
  ((optimize_retains_iff_amplitude_gt_cutoff ⟨[⟨1, 1, 0⟩]⟩ (1 / 1000)).2 ⟨1, 1, 0⟩).mpr
    ⟨by simp, by norm_num⟩

/-- C3 (counterexample): at `N = 5`, bin `k = 2` satisfies `0 < k < N/2` under
exact (rational) halving, yet `fft_to_freq` maps it to the positive signed
frequency `3 = N - k`, not to a negative frequency of magnitude `k`. -/
theorem fft_to_freq_half_bin_counterexample :
    ((2 : ℚ) < (5 : ℚ) / 2) ∧ (fft_to_freq testOps 2 0 0 5).freq = 3 ∧
      ¬ (fft_to_freq testOps 2 0 0 5).freq < 0 := by
  refine ⟨by norm_num, ?_, ?_⟩ <;> simp [fft_to_freq] <;> norm_num

/-- C3 (amended): with the half point taken as the integer division `N / 2`
(as the source computes it), the bin-to-signed-frequency mapping is: bin `0`
maps to frequency `0`; every bin `k` with `0 < k < N / 2` maps to the negative
frequency `-k`; and every bin `k` with `N / 2 <= k < N` (and `k > 0`) maps to
the positive frequency `N - k`. -/
theorem fft_to_freq_signed_mapping (ops : RealOps) (re im : ℚ) (idx N : Nat) :
    (idx = 0 → (fft_to_freq ops idx re im N).freq = 0) ∧
    (0 < idx → idx < N / 2 →
      (fft_to_freq ops idx re im N).freq = -(idx : ℚ) ∧
      (fft_to_freq ops idx re im N).freq < 0) ∧
    (N / 2 ≤ idx → 0 < idx → idx < N →
      (fft_to_freq ops idx re im N).freq = (N : ℚ) - (idx : ℚ) ∧
      0 < (fft_to_freq ops idx re im N).freq) := by
  refine ⟨fun h0 => ?_, fun hpos hlt => ?_, fun hge hpos hltN => ?_⟩
  · simp [fft_to_freq, h0]
  · have hne : idx ≠ 0 := Nat.pos_iff_ne_zero.mp hpos
    constructor
    · simp [fft_to_freq, hne, hlt]
    · simp only [fft_to_freq, if_neg hne, if_pos hlt]
      have : (0 : ℚ) < (idx : ℚ) := by exact_mod_cast hpos
      linarith
  · have hne : idx ≠ 0 := Nat.pos_iff_ne_zero.mp hpos
    have hnlt : ¬ idx < N / 2 := Nat.not_lt.mpr hge
    constructor
    · simp [fft_to_freq, hne, hnlt]
    · simp only [fft_to_freq, if_neg hne, if_neg hnlt]
      have : (idx : ℚ) < (N : ℚ) := by exact_mod_cast hltN
      linarith

/-- C3 (witness): at `N = 6` the three regimes are realized: bin `0` maps to
`0`, bin `2 < 6/2` maps to `-2`, and bin `3 >= 6/2` maps to `3`. -/
theorem fft_to_freq_signed_mapping_witness :
    (fft_to_freq testOps 0 0 0 6).freq = 0 ∧
    (fft_to_freq testOps 2 0 0 6).freq = -2 ∧
    (fft_to_freq testOps 3 0 0 6).freq = 3 := by
  refine ⟨(fft_to_freq_signed_mapping testOps 0 0 0 6).1 rfl, ?_, ?_⟩
  · have h := ((fft_to_freq_signed_mapping testOps 0 0 2 6).2.1 (by norm_num)
      (by norm_num)).1
    simpa using h
  · have h := ((fft_to_freq_signed_mapping testOps 0 0 3 6).2.2 (by norm_num)
      (by norm_num) (by norm_num)).1
    norm_num at h
    exact h

/-- C7: truncation is monotone in the cutoff: if `c1 <= c2` then the
components retained at cutoff `c2` form a sublist (subsequence, in order) of
those retained at cutoff `c1`, and in particular their count is no larger. -/
theorem optimize_cutoff_monotone (body : BakedBody) (c1 c2 : ℚ) (h : c1 ≤ c2) :
    List.Sublist (body.optimize c2).frequencies (body.optimize c1).frequencies ∧
    (body.optimize c2).frequencies.length ≤ (body.optimize c1).frequencies.length := by
  have hs : List.Sublist (body.optimize c2).frequencies (body.optimize c1).frequencies := by
    apply List.monotone_filter_right
    intro f hf
    simp only [decide_eq_true_eq] at hf ⊢
    exact lt_of_le_of_lt h hf
  exact ⟨hs, hs.length_le⟩

/-- C7 (witness): the monotonicity theorem applied at a concrete body with
cutoffs `0.001 <= 1`. -/
theorem optimize_cutoff_monotone_witness :
    List.Sublist
      ((⟨[⟨0, 5, 0⟩, ⟨1, 1 / 2000, 0⟩]⟩ : BakedBody).optimize 1).frequencies
      ((⟨[⟨0, 5, 0⟩, ⟨1, 1 / 2000, 0⟩]⟩ : BakedBody).optimize (1 / 1000)).frequencies ∧
    ((⟨[⟨0, 5, 0⟩, ⟨1, 1 / 2000, 0⟩]⟩ : BakedBody).optimize 1).frequencies.length ≤
      ((⟨[⟨0, 5, 0⟩, ⟨1, 1 / 2000, 0⟩]⟩ : BakedBody).optimize (1 / 1000)).frequencies.length :=
  optimize_cutoff_monotone ⟨[⟨0, 5, 0⟩, ⟨1, 1 / 2000, 0⟩]⟩ (1 / 1000) 1 (by norm_num)

/-- C8: `inverse_analyze` computes exactly the spec's reconstruction formula:
at each sample index `i` in `[0, frames)` it produces the sum over all
retained components of `amplitude` times the unit vector at angle
`-(tau * (i / frames) * freq + phase)`.  Both sides are pure functions of
their arguments (the embedding is state-free, as is the Rust function, which
only reads `&BakedBody`). -/
theorem inverse_analyze_matches_spec (ops : RealOps) (frames : Nat) (body : BakedBody) :
    inverse_analyze ops frames body = reconstructSpec ops frames body := by
  unfold inverse_analyze reconstructSpec
  refine List.map_congr_left fun i _ => ?_
  refine congrArg vecSum (List.map_congr_left fun c _ => ?_)
  simp only [FrequencyComponent.sample, Vec2.from_angle, Vec2.vmul, Vec2.smul]
  exact Vec2.ext (mul_comm _ _) (mul_comm _ _)

/-- C9: `OrbitConfig::to_orbit` performs no validation: a configuration with
two masses but a single position and velocity is silently coerced (by `zip`
truncation) into a one-body orbit instead of failing. -/
theorem to_orbit_silently_truncates :
    (OrbitConfig.masses ⟨"bad", 1, 0, [1, 2], [⟨0, 0⟩], [⟨0, 0⟩]⟩).length = 2 ∧
    ((OrbitConfig.to_orbit ⟨"bad", 1, 0, [1, 2], [⟨0, 0⟩], [⟨0, 0⟩]⟩).initial_conds).length = 1 :=
  ⟨rfl, rfl⟩

/-- Setting index `n` of a body list to a body that agrees under `f` with the
element already there leaves `map f` unchanged. -/
theorem map_set_eq {α : Type} (f : Body → α) :
    ∀ (l : List Body) (n : Nat) (b : Body),
      (∀ c ∈ l[n]?, f b = f c) → (l.set n b).map f = l.map f := by
  intro l
  induction l with
  | nil => intro n b _; rfl
  | cons x xs ih =>
    intro n b h
    cases n with
    | zero => simp_all
    | succ n => simp only [List.set_cons_succ, List.map_cons]; rw [ih n b (by simpa using h)]

/-- One pair interaction of `apply_forces` only rewrites velocities: any
per-body observation `f` that ignores the velocity field is preserved. -/
theorem forcePair_map {α : Type} (f : Body → α)
    (hf : ∀ (b : Body) (w : Vec2), f { b with velocity := w } = f b)
    (ops : RealOps) (dt : ℚ) (bs : List Body) (ij : Nat × Nat) :
    (forcePair ops dt bs ij).map f = bs.map f := by
  unfold forcePair
  cases h1 : bs[ij.1]? with
  | none => rfl
  | some body =>
    cases h2 : bs[ij.2]? with
    | none => rfl
    | some other =>
      simp only []
      rw [map_set_eq, map_set_eq]
      · intro c hc
        rw [h1] at hc
        simp only [Option.mem_def, Option.some.injEq] at hc
        subst hc
        exact hf _ _
      · intro c hc
        rcases eq_or_ne ij.1 ij.2 with heq | hne
        · rw [← heq] at hc h2
          rw [List.getElem?_set_eq_of_lt _ (List.getElem?_eq_some.mp h1).1] at hc
          simp only [Option.mem_def, Option.some.injEq] at hc
          subst hc
          simp only [hf]
          rw [h1] at h2
          cases h2
          rfl
        · rw [List.getElem?_set_ne hne] at hc
          rw [h2] at hc
          simp only [Option.mem_def, Option.some.injEq] at hc
          subst hc
          exact hf _ _

/-- Any prefix of pair interactions preserves every velocity-ignoring
per-body observation, in particular positions and masses. -/
theorem foldl_forcePair_map {α : Type} (f : Body → α)
    (hf : ∀ (b : Body) (w : Vec2), f { b with velocity := w } = f b)
    (ops : RealOps) (dt : ℚ) :
    ∀ (ps : List (Nat × Nat)) (bs : List Body),
      (ps.foldl (forcePair ops dt) bs).map f = bs.map f := by
  intro ps
  induction ps with
  | nil => intro bs; rfl
  | cons p ps ih =>
    intro bs
    rw [List.foldl_cons, ih, forcePair_map f hf]

/-- C5: during one integrator step every pairwise force computation reads
positions unchanged since the start of the step: after any prefix of the
pair loop of `apply_forces` (and after all of it) every body's position and
mass equal their initial values, and `step` updates positions only after the
complete `apply_forces` pass. -/
theorem step_positions_single_snapshot (ops : RealOps) (dt : ℚ) (bodies : List Body) :
    (∀ k : Nat,
      (((pairList bodies.length).take k).foldl (forcePair ops dt) bodies).map Body.position =
        bodies.map Body.position) ∧
    (∀ k : Nat,
      (((pairList bodies.length).take k).foldl (forcePair ops dt) bodies).map Body.mass =
        bodies.map Body.mass) ∧
    (apply_forces ops dt bodies).map Body.position = bodies.map Body.position ∧
    (apply_forces ops dt bodies).map Body.mass = bodies.map Body.mass ∧
    step ops dt bodies = update dt (apply_forces ops dt bodies) := by
  have hpos : ∀ (b : Body) (w : Vec2),
      ({ b with velocity := w } : Body).position = b.position := fun _ _ => rfl
  have hmass : ∀ (b : Body) (w : Vec2),
      ({ b with velocity := w } : Body).mass = b.mass := fun _ _ => rfl
  exact ⟨fun k => foldl_forcePair_map Body.position hpos ops dt _ bodies,
    fun k => foldl_forcePair_map Body.mass hmass ops dt _ bodies,
    foldl_forcePair_map Body.position hpos ops dt _ bodies,
    foldl_forcePair_map Body.mass hmass ops dt _ bodies, rfl⟩

/-- C2: one `apply_forces` pass does NOT conserve momentum for unequal
masses: with bodies of mass `1` at `(0,0)` and mass `2` at `(1,0)` (both at
rest, separation `1`, so `sqrt 1 = 1` is all that is assumed of `sqrt`), the
total `mass * velocity` changes from `(0,0)` to `(-2,0)`, because the code
adds the impulse `dt * force * delta` to each velocity without dividing by
that body's mass. -/
theorem apply_forces_momentum_not_conserved (ops : RealOps) (h : ops.sqrt 1 = 1) :
    totalMomentum (apply_forces ops 1 [⟨1, ⟨0, 0⟩, ⟨0, 0⟩⟩, ⟨2, ⟨1, 0⟩, ⟨0, 0⟩⟩]) ≠
      totalMomentum [⟨1, ⟨0, 0⟩, ⟨0, 0⟩⟩, ⟨2, ⟨1, 0⟩, ⟨0, 0⟩⟩] := by
  have hp : pairList 2 = [(0, 1)] := by decide
  show totalMomentum ((pairList 2).foldl (forcePair ops 1) _) ≠ _
  rw [hp]
  norm_num [forcePair, totalMomentum, vecSum, Vec2.normalize,
    Vec2.lengthSq, Vec2.smul, h, Vec2.mk.injEq, Vec2.add_x, Vec2.add_y]

/-- C2 (witness): the momentum violation instantiated at a concrete `sqrt`. -/
theorem apply_forces_momentum_not_conserved_witness :
    totalMomentum (apply_forces testOps 1 [⟨1, ⟨0, 0⟩, ⟨0, 0⟩⟩, ⟨2, ⟨1, 0⟩, ⟨0, 0⟩⟩]) ≠
      totalMomentum [⟨1, ⟨0, 0⟩, ⟨0, 0⟩⟩, ⟨2, ⟨1, 0⟩, ⟨0, 0⟩⟩] :=
  apply_forces_momentum_not_conserved testOps rfl

/-- `pushFrame` returns as many rows as it was given. -/
theorem pushFrame_length {T O : Type} (map : T → O) :
    ∀ (acc : List (List O)) (fr : List T), (pushFrame map acc fr).length = acc.length := by
  intro acc
  induction acc with
  | nil => intro fr; cases fr <;> rfl
  | cons col acc ih =>
    intro fr
    cases fr with
    | nil => rfl
    | cons t fr => simp [pushFrame, ih fr]

/-- Row `j` after pushing one frame: if the frame has a `j`-th entry it is
appended to row `j`, otherwise the row is unchanged. -/
theorem pushFrame_getElem {T O : Type} (map : T → O) :
    ∀ (acc : List (List O)) (fr : List T) (j : Nat),
      (pushFrame map acc fr)[j]? =
        Option.map (fun col => col ++ ((fr[j]?).map map).toList) acc[j]? := by
  intro acc
  induction acc with
  | nil => intro fr j; cases fr <;> simp [pushFrame]
  | cons col acc ih =>
    intro fr j
    cases fr with
    | nil => cases j <;> simp [pushFrame]
    | cons t fr =>
      cases j with
      | zero => simp [pushFrame]
      | succ j => simp [pushFrame, ih fr j]

/-- Folding any number of frames preserves the number of rows. -/
theorem foldl_pushFrame_length {T O : Type} (map : T → O) :
    ∀ (frames : List (List T)) (acc : List (List O)),
      (frames.foldl (pushFrame map) acc).length = acc.length := by
  intro frames
  induction frames with
  | nil => intro acc; rfl
  | cons fr rest ih => intro acc; rw [List.foldl_cons, ih, pushFrame_length]

/-- Row `j` after folding a list of frames each long enough to have a `j`-th
entry: the initial row followed by those entries in frame order. -/
theorem foldl_pushFrame_getElem {T O : Type} (map : T → O) (d : T) :
    ∀ (frames : List (List T)) (acc : List (List O)) (j : Nat),
      (∀ fr ∈ frames, j < fr.length) →
      (frames.foldl (pushFrame map) acc)[j]? =
        Option.map (fun col => col ++ frames.map fun fr => map (fr.getD j d)) acc[j]? := by
  intro frames
  induction frames with
  | nil =>
    intro acc j _
    cases h : acc[j]? <;> simp [h]
  | cons fr rest ih =>
    intro acc j hj
    have hfr : j < fr.length := hj fr (by simp)
    rw [List.foldl_cons, ih _ j (fun f hf => hj f (by simp [hf])), pushFrame_getElem]
    have : fr[j]? = some (fr.getD j d) := by
      rw [List.getElem?_eq_getElem hfr, List.getD_eq_getElem fr d hfr]
    rw [this]
    cases h : acc[j]? <;> simp [h]

/-- Reading a list back off by index reproduces it. -/
theorem rangeMap_getD {β : Type} :
    ∀ (l : List β) (d : β), (List.range l.length).map (fun j => l.getD j d) = l := by
  intro l
  induction l with
  | nil => intro d; rfl
  | cons a t ih =>
    intro d
    rw [List.length_cons, List.range_succ_eq_map, List.map_cons, List.map_map]
    show a :: (List.range t.length).map (fun j => t.getD j d) = a :: t
    rw [ih d]

/-- `transpose` on a non-empty rectangular input (every frame of length `m`)
yields the `m` columns, column `j` holding entry `j` of every frame. -/
theorem transpose_eq {T O : Type} (map : T → O) (d : T) (positions : List (List T))
    (m : Nat) (hne : positions ≠ []) (hrect : ∀ fr ∈ positions, fr.length = m) :
    transpose map positions =
      some ((List.range m).map fun j => positions.map fun fr => map (fr.getD j d)) := by
  obtain ⟨p0, rest, rfl⟩ : ∃ p0 rest, positions = p0 :: rest := by
    cases positions with
    | nil => exact absurd rfl hne
    | cons p0 rest => exact ⟨p0, rest, rfl⟩
  have hp0 : p0.length = m := hrect p0 (by simp)
  show some _ = some _
  congr 1
  apply List.ext_getElem?
  intro j
  rcases Nat.lt_or_ge j m with hj | hj
  · rw [foldl_pushFrame_getElem map d _ _ j
      (fun fr hfr => by rw [hrect fr hfr]; exact hj)]
    rw [List.getElem?_map]
    rw [List.getElem?_range hj]
    have hrep : (List.replicate p0.length ([] : List O))[j]? = some [] := by
      rw [hp0]
      rw [List.getElem?_eq_getElem (by simpa using hj)]
      simp
    rw [hrep]
    simp
  · have h1 : ((p0 :: rest).foldl (pushFrame map) (List.replicate p0.length []))[j]? = none := by
      apply List.getElem?_eq_none
      rw [foldl_pushFrame_length]
      simpa [hp0] using hj
    have h2 : ((List.range m).map fun j => (p0 :: rest).map fun fr => map (fr.getD j d))[j]? = none := by
      apply List.getElem?_eq_none
      simpa using hj
    rw [h1, h2]

/-- C10: on non-empty rectangular frame-major data with non-zero row length,
`transpose` with the identity map succeeds, returns `m` rows each as long as
the number of input frames, and transposing the result returns the original
data. -/
theorem transpose_transpose_id {α : Type} (positions : List (List α)) (m : Nat)
    (hne : positions ≠ []) (hm : 0 < m) (hrect : ∀ fr ∈ positions, fr.length = m) :
    ∃ cols, transpose id positions = some cols ∧ cols.length = m ∧
      (∀ col ∈ cols, col.length = positions.length) ∧
      transpose id cols = some positions := by
  obtain ⟨p0, rest, rfl⟩ : ∃ p0 rest, positions = p0 :: rest := by
    cases positions with
    | nil => exact absurd rfl hne
    | cons p0 rest => exact ⟨p0, rest, rfl⟩
  have hp0 : p0.length = m := hrect p0 (by simp)
  obtain ⟨d, t0, rfl⟩ : ∃ a t, p0 = a :: t := by
    cases p0 with
    | nil => exfalso; rw [← hp0] at hm; simp at hm
    | cons a t => exact ⟨a, t, rfl⟩
  have h1 := transpose_eq id d ((d :: t0) :: rest) m hne hrect
  simp only [id_eq] at h1
  refine ⟨(List.range m).map (fun j => ((d :: t0) :: rest).map fun fr => fr.getD j d),
    h1, by simp, ?_, ?_⟩
  · intro col hcol
    simp only [List.mem_map] at hcol
    obtain ⟨j, _, rfl⟩ := hcol
    simp
  · have hne2 : (List.range m).map (fun j => ((d :: t0) :: rest).map fun fr => fr.getD j d) ≠ [] := by
      simp only [ne_eq, List.map_eq_nil_iff, List.range_eq_nil]
      omega
    have hrect2 : ∀ col ∈ (List.range m).map (fun j => ((d :: t0) :: rest).map fun fr => fr.getD j d),
        col.length = ((d :: t0) :: rest).length := by
      intro col hcol
      simp only [List.mem_map] at hcol
      obtain ⟨j, _, rfl⟩ := hcol
      simp
    have h2 := transpose_eq id d _ ((d :: t0) :: rest).length hne2 hrect2
    simp only [id_eq] at h2
    rw [h2]
    congr 1
    apply List.ext_getElem?
    intro i
    rcases Nat.lt_or_ge i ((d :: t0) :: rest).length with hi | hi
    · rw [List.getElem?_map, List.getElem?_range hi, List.getElem?_eq_getElem hi]
      simp only [Option.map_some']
      congr 1
      rw [List.map_map]
      have hstep : ∀ j : Nat,
          ((((d :: t0) :: rest).map fun fr => fr.getD j d).getD i d)
            = (((d :: t0) :: rest)[i]).getD j d := by
        intro j
        rw [List.getD_eq_getElem _ d (by simpa using hi), List.getElem_map]
      calc ((List.range m).map
              ((fun col => col.getD i d) ∘ fun j => ((d :: t0) :: rest).map fun fr => fr.getD j d))
          = (List.range m).map (fun j => (((d :: t0) :: rest)[i]).getD j d) :=
            List.map_congr_left (fun j _ => hstep j)
        _ = ((d :: t0) :: rest)[i] := by
            have hlen : ((((d :: t0) :: rest))[i]).length = m :=
              hrect _ (List.getElem_mem hi)
            rw [← hlen, rangeMap_getD]
    · rw [List.getElem?_eq_none (by simpa using hi), List.getElem?_eq_none hi]

/-- C10 (witness): the involution at a concrete 2x2 input. -/
theorem transpose_transpose_id_witness :
    ∃ cols, transpose id [[1, 2], [3, 4]] = some cols ∧ cols.length = 2 ∧
      (∀ col ∈ cols, col.length = ([[1, 2], [3, 4]] : List (List Nat)).length) ∧
      transpose id cols = some [[1, 2], [3, 4]] :=
  transpose_transpose_id [[1, 2], [3, 4]] 2 (by decide) (by decide) (by decide)

/-- One integrator step of a single body: no pairs, so only the position
advances by `velocity * dt`. -/
theorem step_single (ops : RealOps) (dt : ℚ) (m : ℚ) (p v : Vec2) :
    step ops dt [⟨m, p, v⟩] = [⟨m, p + v.vmul dt, v⟩] := rfl

/-- Iterating single-body steps advances the position linearly. -/
theorem foldl_step_single (ops : RealOps) (dt : ℚ) (m : ℚ) (p v : Vec2) :
    ∀ n : Nat, (List.range n).foldl (fun bs _ => step ops dt bs) [⟨m, p, v⟩] =
      [⟨m, p + v.vmul ((n : ℚ) * dt), v⟩] := by
  intro n
  induction n with
  | zero =>
    have h0 : p + v.vmul 0 = p := by
      apply Vec2.ext <;> simp [Vec2.vmul]
    simp [h0]
  | succ n ih =>
    rw [List.range_succ, List.foldl_append, ih, List.foldl_cons, List.foldl_nil, step_single]
    have key : (p + v.vmul ((n : ℚ) * dt)) + v.vmul dt =
        p + v.vmul (((n + 1 : Nat) : ℚ) * dt) := by
      apply Vec2.ext <;> simp [Vec2.vmul] <;> ring
    rw [key]

/-- The 10000-micro-step loop on a single body advances its position by
`velocity * (10000 * dt)`. -/
theorem microLoop_single (ops : RealOps) (dt : ℚ) (m : ℚ) (p v : Vec2) :
    microLoop ops dt [⟨m, p, v⟩] = [⟨m, p + v.vmul (10000 * dt), v⟩] := by
  have h := foldl_step_single ops dt m p v 10000
  norm_num at h
  exact h

/-- The recording loop of `simulate` on a single body: after `F` frames the
history is the arithmetic sequence of sampled positions. -/
theorem simFold_single (ops : RealOps) (dt : ℚ) (m : ℚ) (p v : Vec2) :
    ∀ F : Nat, (List.range F).foldl (simStep ops dt) ([⟨m, p, v⟩], [[p]]) =
      ([⟨m, p + v.vmul ((F : ℚ) * (10000 * dt)), v⟩],
       (List.range (F + 1)).map fun (k : Nat) => [p + v.vmul ((k : ℚ) * (10000 * dt))]) := by
  intro F
  induction F with
  | zero =>
    have h0 : p + v.vmul 0 = p := by
      apply Vec2.ext <;> simp [Vec2.vmul]
    simp [List.range_succ, h0]
  | succ F ih =>
    rw [List.range_succ, List.foldl_append, ih, List.foldl_cons, List.foldl_nil]
    have key : (p + v.vmul ((F : ℚ) * (10000 * dt))) + v.vmul (10000 * dt) =
        p + v.vmul (((F + 1 : Nat) : ℚ) * (10000 * dt)) := by
      apply Vec2.ext <;> simp [Vec2.vmul] <;> ring
    simp only [simStep, microLoop_single, List.map_cons, List.map_nil, key]
    simp only [Prod.mk.injEq]
    refine ⟨trivial, ?_⟩
    conv_rhs => rw [List.range_succ, List.map_append]
    rfl

/-- `simulate` on any single-body orbit: the initial position followed by
`frames * subframes` equally spaced samples along the straight line. -/
theorem simulate_single (ops : RealOps) (cfg : SimulationConfig) (nm : String)
    (m : ℚ) (p v : Vec2) (T : ℚ) :
    simulate ops cfg ⟨nm, [⟨m, p, v⟩], T⟩ =
      (List.range (cfg.frames * cfg.subframes + 1)).map fun (k : Nat) =>
        [p + v.vmul ((k : ℚ) *
          (10000 * (T / ((cfg.frames * cfg.subframes : Nat) : ℚ) / 10000)))] := by
  simp only [simulate, List.map_cons, List.map_nil]
  rw [simFold_single]

/-- A single body of mass 1 drifting right at speed 1/100, period 1. -/
def lineOrbit0 : Orbit := ⟨"line", [⟨1, ⟨0, 0⟩, ⟨1/100, 0⟩⟩], 1⟩

/-- Concrete evaluation: closing the drifting one-body orbit with 2 frames.
Forward samples are (0,0), (1/200,0); time-reversed backward samples are
(-1/100,0), (-1/200,0); the per-body RMS error 1/10000 passes the assert and
the blend collapses every frame to (0,0). -/
theorem sim_closed_move (ops : RealOps) :
    simulate_closed ops ⟨2, 1⟩ lineOrbit0 = some [[⟨0, 0⟩], [⟨0, 0⟩]] := by
  simp only [simulate_closed, lineOrbit0, List.map_cons, List.map_nil]
  rw [simulate_single, simulate_single]
  norm_num [List.range_succ, Vec2.vmul]
  simp [transpose, pushFrame, List.replicate, blendFrom, lerpFrame, Vec2.lerp, Vec2.vmul]
  constructor
  · norm_num [rms_error, Vec2.dist2, Vec2.lengthSq]
  · norm_num

/-- `lerp` with weight 0 returns its first argument exactly. -/
theorem lerp_zero (a b : Vec2) : a.lerp b 0 = a := by
  apply Vec2.ext <;> simp [Vec2.lerp, Vec2.vmul]

/-- Blending a frame with weight 0 returns the forward frame. -/
theorem lerpFrame_zero : ∀ (f b : List Vec2), lerpFrame 0 f b = f := by
  intro f
  induction f with
  | nil => intro b; cases b <;> rfl
  | cons x xs ih =>
    intro b
    cases b with
    | nil => rfl
    | cons y ys => simp [lerpFrame, lerp_zero, ih]

/-- The blend loop returns one output frame per forward frame. -/
theorem blendFrom_length (n : Nat) :
    ∀ (i : Nat) (fs bs : List (List Vec2)), (blendFrom n i fs bs).length = fs.length := by
  intro i fs
  induction fs generalizing i with
  | nil => intro bs; cases bs <;> rfl
  | cons f fs ih =>
    intro bs
    cases bs with
    | nil => rfl
    | cons b bs => simp [blendFrom, ih]

/-- Output frame `idx` of the blend loop started at counter `i` is the
per-body lerp of the two input frames with weight `(i + idx) / n`. -/
theorem blendFrom_getElem (n : Nat) :
    ∀ (fs bs : List (List Vec2)) (i idx : Nat) (f b : List Vec2),
      fs[idx]? = some f → bs[idx]? = some b →
      (blendFrom n i fs bs)[idx]? =
        some (lerpFrame (((i + idx : Nat) : ℚ) / (n : ℚ)) f b) := by
  intro fs
  induction fs with
  | nil => intro bs i idx f b hf; simp at hf
  | cons f0 fs ih =>
    intro bs i idx f b hf hb
    cases bs with
    | nil => simp at hb
    | cons b0 bs =>
      cases idx with
      | zero =>
        simp only [List.getElem?_cons_zero, Option.some.injEq] at hf hb
        subst hf; subst hb
        simp [blendFrom]
      | succ idx =>
        simp only [List.getElem?_cons_succ] at hf hb
        have := ih bs (i + 1) idx f b hf hb
        simp only [blendFrom, List.getElem?_cons_succ]
        rw [this, show i + 1 + idx = i + (idx + 1) from by omega]

/-- The first blended frame is the first forward frame (weight `0/n = 0`). -/
theorem blendFrom_head (n : Nat) :
    ∀ (fs bs : List (List Vec2)), (blendFrom n 0 fs bs).head? = fs.head? := by
  intro fs bs
  cases fs with
  | nil => cases bs <;> rfl
  | cons f fs =>
    cases bs with
    | nil => rfl
    | cons b bs => simp [blendFrom, lerpFrame_zero]

/-- Whenever `simulate_closed` returns, its output is the frame-by-frame
blend of the trimmed forward trajectory and the trimmed time-reversed
backward trajectory, with weight denominator the trimmed forward length. -/
theorem simulate_closed_eq_blend (ops : RealOps) (cfg : SimulationConfig)
    (orbit : Orbit) (out : List (List Vec2))
    (h : simulate_closed ops cfg orbit = some out) :
    out = blendFrom ((simulate ops cfg orbit).dropLast).length 0
        ((simulate ops cfg orbit).dropLast)
        (((simulate ops cfg
          { orbit with
            initial_conds := orbit.initial_conds.map fun body =>
              { body with velocity := -body.velocity } }).reverse).dropLast) := by
  simp only [simulate_closed] at h
  cases ht1 : transpose (fun p => p) ((simulate ops cfg orbit).dropLast) with
  | none => rw [ht1] at h; simp at h
  | some fe =>
    cases ht2 : transpose (fun p => p) (((simulate ops cfg
        { orbit with
          initial_conds := orbit.initial_conds.map fun body =>
            { body with velocity := -body.velocity } }).reverse).dropLast) with
    | none => rw [ht1, ht2] at h; simp at h
    | some be =>
      rw [ht1, ht2] at h
      by_cases hc : ((fe.zip be).all fun pr => decide (rms_error pr.1 pr.2 < 1 / 1000)) = true
      · simp only [hc, if_true, Option.some.injEq] at h
        exact h.symm
      · simp only [hc, if_false] at h
        exact absurd h (by simp)

/-- Each iteration of the recording loop appends exactly one sample. -/
theorem simFold_length (ops : RealOps) (dt : ℚ) :
    ∀ (l : List Nat) (st : List Body × List (List Vec2)),
      ((l.foldl (simStep ops dt) st).2).length = st.2.length + l.length := by
  intro l
  induction l with
  | nil => intro st; rfl
  | cons k l ih =>
    intro st
    rw [List.foldl_cons, ih]
    simp [simStep]
    omega

/-- `simulate` records the initial state plus one sample per sub-step. -/
theorem simulate_length (ops : RealOps) (cfg : SimulationConfig) (orbit : Orbit) :
    (simulate ops cfg orbit).length = cfg.frames * cfg.subframes + 1 := by
  simp only [simulate]
  rw [simFold_length]
  simp [Nat.add_comm]

/-- C6: `simulate` returns exactly `frames * subframes + 1` samples, and
whenever `simulate_closed` returns a trajectory it has exactly
`frames * subframes` samples, one fewer. -/
theorem simulate_sample_counts (ops : RealOps) (cfg : SimulationConfig) (orbit : Orbit) :
    (simulate ops cfg orbit).length = cfg.frames * cfg.subframes + 1 ∧
    (∀ t, simulate_closed ops cfg orbit = some t →
      t.length = cfg.frames * cfg.subframes) := by
  refine ⟨simulate_length ops cfg orbit, fun t ht => ?_⟩
  rw [simulate_closed_eq_blend ops cfg orbit t ht, blendFrom_length,
    List.length_dropLast, simulate_length]
  omega

/-- A single body of mass 1 at rest at the origin, period 1. -/
def stationaryOrbit : Orbit := ⟨"still", [⟨1, ⟨0, 0⟩, ⟨0, 0⟩⟩], 1⟩

/-- Concrete evaluation: closing the stationary one-body orbit with one
frame yields the single sample at the origin. -/
theorem sim_closed_still (ops : RealOps) :
    simulate_closed ops ⟨1, 1⟩ stationaryOrbit = some [[⟨0, 0⟩]] := by
  simp only [simulate_closed, stationaryOrbit, List.map_cons, List.map_nil]
  rw [simulate_single, simulate_single]
  norm_num [List.range_succ, Vec2.vmul]
  simp [transpose, pushFrame, List.replicate, blendFrom, lerpFrame, Vec2.lerp, Vec2.vmul,
    rms_error, Vec2.dist2, Vec2.lengthSq]

/-- C6 (witness): the counts at one frame of the stationary orbit, where
`simulate_closed` returns `some [[(0,0)]]`. -/
theorem simulate_sample_counts_witness :
    (simulate testOps ⟨1, 1⟩ stationaryOrbit).length = 1 * 1 + 1 ∧
    ([[(⟨0, 0⟩ : Vec2)]] : List (List Vec2)).length = 1 * 1 :=
  ⟨(simulate_sample_counts testOps ⟨1, 1⟩ stationaryOrbit).1,
   (simulate_sample_counts testOps ⟨1, 1⟩ stationaryOrbit).2 [[⟨0, 0⟩]] (sim_closed_still testOps)⟩

/-- C4 (amended): whenever `simulate_closed` returns, the output is the
blend of the trimmed forward and time-reversed backward trajectories where
frame `idx` is blended with weight `idx / frame_num` - rising linearly from
0 at the first sample to `(frame_num - 1) / frame_num` (not 1) at the last -
so the first output sample equals the pure forward trajectory's first
sample, but the last output sample is a lerp at weight
`(frame_num - 1) / frame_num`, not the pure backward sample. -/
theorem simulate_closed_blend_weight_profile (ops : RealOps) (cfg : SimulationConfig)
    (orbit : Orbit) (out : List (List Vec2))
    (h : simulate_closed ops cfg orbit = some out) :
    out = blendFrom ((simulate ops cfg orbit).dropLast).length 0
        ((simulate ops cfg orbit).dropLast)
        (((simulate ops cfg
          { orbit with
            initial_conds := orbit.initial_conds.map fun body =>
              { body with velocity := -body.velocity } }).reverse).dropLast) ∧
    (∀ (idx : Nat) (f b : List Vec2),
      ((simulate ops cfg orbit).dropLast)[idx]? = some f →
      (((simulate ops cfg
          { orbit with
            initial_conds := orbit.initial_conds.map fun body =>
              { body with velocity := -body.velocity } }).reverse).dropLast)[idx]? = some b →
      out[idx]? = some (lerpFrame
        ((idx : ℚ) / ((((simulate ops cfg orbit).dropLast).length : Nat) : ℚ)) f b)) ∧
    out.head? = ((simulate ops cfg orbit).dropLast).head? := by
  have hb := simulate_closed_eq_blend ops cfg orbit out h
  refine ⟨hb, fun idx f b hf hbb => ?_, ?_⟩
  · rw [hb]
    have hg := blendFrom_getElem ((simulate ops cfg orbit).dropLast).length _ _ 0 idx f b hf hbb
    simpa using hg
  · rw [hb, blendFrom_head]

/-- C4 (witness): the blend profile applied to the stationary orbit. -/
theorem simulate_closed_blend_weight_profile_witness :
    ([[(⟨0, 0⟩ : Vec2)]] : List (List Vec2)).head? =
      ((simulate testOps ⟨1, 1⟩ stationaryOrbit).dropLast).head? :=
  (simulate_closed_blend_weight_profile testOps ⟨1, 1⟩ stationaryOrbit [[⟨0, 0⟩]]
    (sim_closed_still testOps)).2.2

/-- C4 (counterexample): for the drifting one-body orbit with 2 frames the
blended trajectory's last sample is [(0,0)], while the pure time-reversed
backward trajectory's last sample is [(-1/200,0)]: the last output sample
does NOT equal the backward trajectory's last sample (the blend weight at
the last frame is (N-1)/N, not 1). -/
theorem simulate_closed_last_sample_counterexample :
    simulate_closed testOps ⟨2, 1⟩ lineOrbit0 = some [[⟨0, 0⟩], [⟨0, 0⟩]] ∧
    (((simulate testOps ⟨2, 1⟩
      { lineOrbit0 with
        initial_conds := lineOrbit0.initial_conds.map fun body =>
          { body with velocity := -body.velocity } }).reverse).dropLast).getLast? =
      some [⟨-(1/200), 0⟩] ∧
    ([[(⟨0, 0⟩ : Vec2)], [⟨0, 0⟩]] : List (List Vec2)).getLast? ≠
      some [(⟨-(1/200), 0⟩ : Vec2)] := by
  refine ⟨sim_closed_move testOps, ?_, ?_⟩
  · simp only [lineOrbit0, List.map_cons, List.map_nil]
    rw [simulate_single]
    norm_num [List.range_succ, Vec2.vmul]
  · simp [Vec2.mk.injEq]
